import Mathlib

/-!
# Verification of the `bspline` package (Cox–de Boor B-spline basis evaluation)

Shallow embedding of `src/bspline.py` (class `Bspline`) and
`src/bspline/splinelab.py` (`augknt`, `aveknt`, `aptknt`, `knt2mlt`, `spcol`)
into Lean, with theorems settling the specification claims.

Conventions used throughout:
* numpy rank-1 float arrays are modelled as `List α` over a linear ordered
  field `α`; the definitions are kept generic (hence computable), and the
  claim theorems instantiate `α := ℝ`;
* `numpy` slices are translated to `List.take` / `List.drop` / `List.dropLast`,
  and elementwise arithmetic to `List.zipWith` / `List.map`;
* Python exceptions are modelled with `Except`;
* machine floating point is modelled by exact arithmetic, so numeric
  claims are settled in exact arithmetic.
-/

namespace BsplineVerif

variable {α : Type*} [LinearOrderedField α]

/-- Python-level failure outcomes that the embedded `splinelab` functions can
produce.  `unsortedSites` and `repeatedSiteViolation` are the two distinct
`ValueError`s raised by `aptknt`; `invalidShape` is the `ValueError` raised on
rank-2 input; `indexError` models indexing `[0]`/`[-1]` into an empty list;
`zeroDivision` models Python's `ZeroDivisionError`. -/
inductive Err where
  | invalidShape
  | unsortedSites
  | repeatedSiteViolation
  | indexError
  | zeroDivision
deriving DecidableEq, Repr

/-- `Bspline.__basis0` (src/bspline.py:68-71):
`np.where(np.all([knot_vector[:-1] <= xi, xi < knot_vector[1:]], axis=0), 1.0, 0.0)`.
`kv[:-1]` is `kv.dropLast`, `kv[1:]` is `kv.drop 1`; the elementwise
conjunction-and-select becomes a `zipWith` of an `if`. -/
def basis0 (kv : List α) (xi : α) : List α :=
  List.zipWith (fun a b => if a ≤ xi ∧ xi < b then (1 : α) else 0)
    kv.dropLast (kv.drop 1)

/-- `Bspline.__basis` (src/bspline.py:73-108), with the recursion level as the
last argument.  `selfp` is the evaluator's configured order `self.p`; the
recursive call passes `compute_derivatives=False` exactly as in the source.
For recursion level `p+1` over a knot vector of length `m`:
`kv[:-(p+1)] = kv.take (m-(p+1))`, `kv[(p+1):] = kv.drop (p+1)`,
`kv[(p+2):] = kv.drop (p+2)`, `kv[1:-(p+1)] = (kv.drop 1).take (m-1-(p+1))`;
`np.where(den != 0.0, num/den, 0.0)` becomes an elementwise `if`. -/
def basisAux (kv : List α) (selfp : ℕ) (xi : α) (compute_derivatives : Bool) :
    ℕ → List α
  | 0 => basis0 kv xi
  | p + 1 =>
    let m := kv.length
    let basis_p_minus_1 := basisAux kv selfp xi false p
    let first_term_numerator := (kv.take (m - (p + 1))).map (fun t => xi - t)
    let first_term_denominator :=
      List.zipWith (fun a b => a - b) (kv.drop (p + 1)) (kv.take (m - (p + 1)))
    let second_term_numerator := (kv.drop (p + 2)).map (fun t => t - xi)
    let second_term_denominator :=
      List.zipWith (fun a b => a - b) (kv.drop (p + 2))
        ((kv.drop 1).take (m - 1 - (p + 1)))
    let first_term :=
      if compute_derivatives ∧ p + 1 = selfp then
        first_term_denominator.map
          (fun den => if den ≠ 0 then ((p : α) + 1) / den else 0)
      else
        List.zipWith (fun num den => if den ≠ 0 then num / den else 0)
          first_term_numerator first_term_denominator
    let second_term :=
      if compute_derivatives ∧ p + 1 = selfp then
        second_term_denominator.map
          (fun den => if den ≠ 0 then (-((p : α) + 1)) / den else 0)
      else
        List.zipWith (fun num den => if den ≠ 0 then num / den else 0)
          second_term_numerator second_term_denominator
    List.zipWith (fun a b => a + b)
      (List.zipWith (fun a b => a * b) first_term.dropLast basis_p_minus_1.dropLast)
      (List.zipWith (fun a b => a * b) second_term (basis_p_minus_1.drop 1))

/-- `Bspline.__call__` (src/bspline.py:111-117):
`self.__basis(xi, self.p, compute_derivatives=False)`.
The memoization cache is a pure optimization (the function is deterministic),
so it does not appear in the embedding. -/
def evaluate (kv : List α) (p : ℕ) (xi : α) : List α :=
  basisAux kv p xi false p

/-- `Bspline.d` (src/bspline.py:119-125):
`self.__basis(xi, self.p, compute_derivatives=True)`. -/
def d (kv : List α) (p : ℕ) (xi : α) : List α :=
  basisAux kv p xi true p

/-- The `Bspline` evaluator object: the two attributes set by
`Bspline.__init__` (src/bspline.py:62-65).  The order is stored as an
arbitrary integer because `__init__` performs no validation of it. -/
structure Bspline (α : Type*) where
  knot_vector : List α
  p : ℤ

/-- `Bspline.__init__` (src/bspline.py:62-65): stores the knot vector and the
order.  The source body is exactly `self.knot_vector = np.array(knot_vector);
self.p = order` — there is no check of any kind, so the embedded constructor
is a total function. -/
def Bspline.init (knot_vector : List α) (order : ℤ) : Bspline α :=
  { knot_vector := knot_vector, p := order }

/-! ## splinelab (src/bspline/splinelab.py) -/

/-- A numpy array of rank 1 or rank 2, used to model the
`knots.ndim > 1` shape check of `augknt`. -/
inductive PyArr (α : Type*) where
  | r1 : List α → PyArr α
  | r2 : List (List α) → PyArr α

/-- `splinelab.augknt` (src/bspline/splinelab.py:23-47):
rank-2 input raises `ValueError` (the spec's `InvalidShape`); otherwise the
result is `[knots[0]] * order + knots + [knots[-1]] * order`.  Python
evaluates `knots[0]` and `knots[-1]` eagerly, so an empty list raises
`IndexError` (even when `order = 0`). -/
def augknt (knots : PyArr α) (order : ℕ) : Except Err (List α) :=
  match knots with
  | .r2 _ => .error .invalidShape
  | .r1 knots =>
    if knots = [] then .error .indexError
    else
      .ok (List.replicate order (knots.headD 0) ++ knots ++
        List.replicate order (knots.getLastD 0))

/-- The list produced by `aveknt`'s loop: `u = max(0, n - (k-1))` entries,
entry `j` being `sum(t[j:(j+k)]) / k`.  (`max 0 (n - (k-1)) = n + 1 - k`
in truncated ℕ subtraction.) -/
def avekntList (t : List α) (k : ℕ) : List α :=
  (List.range (t.length + 1 - k)).map (fun j => ((t.drop j).take k).sum / k)

/-- `splinelab.aveknt` (src/bspline/splinelab.py:50-78): running average of
`k` successive elements.  When `k = 0` the output length `u = n+1` is
positive and the first loop iteration evaluates `sum(t[0:0]) / 0`
(a Python int division `0 / 0`), raising `ZeroDivisionError`. -/
def aveknt (t : List α) (k : ℕ) : Except Err (List α) :=
  if k = 0 ∧ 0 < t.length + 1 - k then .error .zeroDivision
  else .ok (avekntList t k)

/-- `splinelab.aptknt` (src/bspline/splinelab.py:81-145).
`k = min(order+1, len(tau))`; the check `(tau == sorted(tau)).all()` is
translated as comparing `tau` with its sorted copy (`List.insertionSort`
computes the same list as Python's stable `sorted` for entries of a linear
order); the repeated-site loop checks `tau[i+k-1] == tau[i]` for
`i < len(tau) - k`; then `prefix = [tau[0]]*k` evaluates `tau[0]` eagerly,
raising `IndexError` on empty input, and `aveknt(tau[1:-1], k-1)` can raise
`ZeroDivisionError` (when `k = 1`).  `tau[1:-1]` is `(tau.drop 1).dropLast`. -/
def aptknt (tau : List α) (order : ℕ) : Except Err (List α) :=
  let k := min (order + 1) tau.length
  if tau.insertionSort (· ≤ ·) ≠ tau then .error .unsortedSites
  else if ∃ i < tau.length - k, tau.getD (i + k - 1) 0 = tau.getD i 0 then
    .error .repeatedSiteViolation
  else if tau = [] then .error .indexError
  else
    match aveknt ((tau.drop 1).dropLast) (k - 1) with
    | .error e => .error e
    | .ok tmp =>
      .ok (List.replicate k (tau.headD 0) ++ tmp ++
        List.replicate k (tau.getLastD 0))

/-- The loop of `splinelab.knt2mlt` (src/bspline/splinelab.py:148-182):
state `e` is the last element seen (`None` initially), `c` the current count;
`if t[k] != e: e = t[k]; count = 0 else: count += 1; out.append(count)`. -/
def knt2mltAux (e : Option α) (c : ℕ) : List α → List ℕ
  | [] => []
  | x :: xs =>
    let c' := if some x = e then c + 1 else 0
    c' :: knt2mltAux (some x) c' xs

/-- `splinelab.knt2mlt` (src/bspline/splinelab.py:148-182): multiplicity
counter, `out[k] = ` number of immediately preceding elements equal to
`t[k]`. -/
def knt2mlt (t : List α) : List ℕ :=
  knt2mltAux none 0 t

/-! ## Indexwise characterization of the recursion

`term1`/`term2` are the blending coefficients exactly as the specification
writes them (`term1 = (xi - knot[i]) / (knot[i+p] - knot[i])`,
`term2 = (knot[i+p+1] - xi) / (knot[i+p+1] - knot[i+1])`, each defined as `0`
when its denominator is `0`), and `Nfun` is the scalar-valued Cox–de Boor
recursion built from them.  The bridge theorems below prove that the
array-slicing implementation `basisAux` computes exactly these values. -/

/-- The specification's `term1` at recursion level `p`, index `i`. -/
def term1 (kv : List α) (p i : ℕ) (xi : α) : α :=
  if kv.getD (i + p) 0 - kv.getD i 0 ≠ 0 then
    (xi - kv.getD i 0) / (kv.getD (i + p) 0 - kv.getD i 0)
  else 0

/-- The specification's `term2` at recursion level `p`, index `i`. -/
def term2 (kv : List α) (p i : ℕ) (xi : α) : α :=
  if kv.getD (i + p + 1) 0 - kv.getD (i + 1) 0 ≠ 0 then
    (kv.getD (i + p + 1) 0 - xi) / (kv.getD (i + p + 1) 0 - kv.getD (i + 1) 0)
  else 0

/-- Scalar-valued Cox–de Boor recursion, indexwise: `Nfun kv p i xi` is the
value of the `i`-th order-`p` basis function at `xi`, as the specification
describes it. -/
def Nfun (kv : List α) : ℕ → ℕ → α → α
  | 0, i, xi => if kv.getD i 0 ≤ xi ∧ xi < kv.getD (i + 1) 0 then 1 else 0
  | p + 1, i, xi =>
      term1 kv (p + 1) i xi * Nfun kv p i xi +
      term2 kv (p + 1) i xi * Nfun kv p (i + 1) xi

/-- The scalar first-derivative value returned by the derivative branch of
the recursion at the outermost level `p ≥ 1`, index `i`:
`p / (knot[i+p] - knot[i]) * N_{p-1}[i] - p / (knot[i+p+1] - knot[i+1]) * N_{p-1}[i+1]`
with the same zero-denominator convention. -/
def dval (kv : List α) (p i : ℕ) (xi : α) : α :=
  (if kv.getD (i + p) 0 - kv.getD i 0 ≠ 0 then
    (p : α) / (kv.getD (i + p) 0 - kv.getD i 0) else 0) * Nfun kv (p - 1) i xi +
  (if kv.getD (i + p + 1) 0 - kv.getD (i + 1) 0 ≠ 0 then
    (-(p : α)) / (kv.getD (i + p + 1) 0 - kv.getD (i + 1) 0) else 0) *
      Nfun kv (p - 1) (i + 1) xi


/-- Reciprocal with the `0⁻¹ = 0` convention used by the zero-denominator
rule (a helper for stating and proving the derivative results). -/
def rinv (t : α) : α := if t ≠ 0 then 1 / t else 0

/-- An integer list reinterpreted at float dtype. -/
def intsToReals (t : List ℤ) : List ℝ :=
  t.map (fun z : ℤ => (z : ℝ))

/-! ## Integer-dtype behavior of `aveknt`/`aptknt` (C10)

`aveknt` allocates `out = np.empty((u,), dtype=t.dtype)`, so when `t` has an
integer dtype each stored value `out[j] = sum(t[j:j+k]) / k` is the float
quotient cast back to the integer element type — a truncation toward zero.
`aptknt` builds its result as `np.array(prefix + middle + suffix,
dtype=tmp.dtype)` with `tmp = aveknt(...)`, so it inherits both the truncated
interior knots and the integer element type. -/

/-- Effect of numpy's float→integer cast: truncation toward zero. -/
def pytrunc {β : Type*} [LinearOrderedField β] [FloorRing β] (x : β) : ℤ :=
  if 0 ≤ x then ⌊x⌋ else ⌈x⌉

/-- The loop of `aveknt` executed at integer dtype: entry `j` is the float
quotient `sum(t[j:j+k]) / k` truncated toward zero by the store into the
integer-typed output array (`Int.tdiv` is exactly that truncating division). -/
def avekntIntList (t : List ℤ) (k : ℕ) : List ℤ :=
  (List.range (t.length + 1 - k)).map
    (fun j => Int.tdiv ((t.drop j).take k).sum (k : ℤ))

/-- `aveknt` executed at integer dtype (same control flow as `aveknt`). -/
def avekntInt (t : List ℤ) (k : ℕ) : Except Err (List ℤ) :=
  if k = 0 ∧ 0 < t.length + 1 - k then .error .zeroDivision
  else .ok (avekntIntList t k)

/-- `aptknt` executed at integer dtype: identical control flow to `aptknt`,
with the interior knots produced by the integer-dtype `aveknt` and the output
element type taken from it (`dtype=tmp.dtype`). -/
def aptkntInt (tau : List ℤ) (order : ℕ) : Except Err (List ℤ) :=
  let k := min (order + 1) tau.length
  if tau.insertionSort (· ≤ ·) ≠ tau then .error .unsortedSites
  else if ∃ i < tau.length - k, tau.getD (i + k - 1) 0 = tau.getD i 0 then
    .error .repeatedSiteViolation
  else if tau = [] then .error .indexError
  else
    match avekntInt ((tau.drop 1).dropLast) (k - 1) with
    | .error e => .error e
    | .ok tmp =>
      .ok (List.replicate k (tau.headD 0) ++ tmp ++
        List.replicate k (tau.getLastD 0))



/-! ## Collocation matrix (C6) -/

/-- Modelled from the spec: the generalized derivative evaluator
`Bspline.diff` lives in the package module `bspline/bspline.py`, which is not
present under `src/` (only its caller `splinelab.spcol` is).  Following the
spec's higher-order derivative rule — "the `k`-th derivative of the order-`p`
basis is expressed via the order-`(p-k)` basis scaled by a triangular product
of difference-quotient coefficients; when `k > p` the result is the zero
vector", obtained by "reducing effective order by one per differentiation
step, accumulating scaling coefficients" — `dNfun kv k p i xi` is the value
of the `k`-th derivative of the `i`-th order-`p` basis function at `xi`:
`k = 0` is the plain value, and each step applies
`D^k B_{i,p} = p * (D^{k-1} B_{i,p-1} / (t_{i+p} - t_i)
             - D^{k-1} B_{i+1,p-1} / (t_{i+p+1} - t_{i+1}))`
with the usual zero-denominator convention. -/
def dNfun (kv : List α) : ℕ → ℕ → ℕ → α → α
  | 0, p, i, xi => Nfun kv p i xi
  | _ + 1, 0, _, _ => 0
  | k + 1, p + 1, i, xi =>
      (if kv.getD (i + (p + 1)) 0 - kv.getD i 0 ≠ 0 then
        ((p : α) + 1) / (kv.getD (i + (p + 1)) 0 - kv.getD i 0) else 0) *
        dNfun kv k p i xi -
      (if kv.getD (i + (p + 1) + 1) 0 - kv.getD (i + 1) 0 ≠ 0 then
        ((p : α) + 1) / (kv.getD (i + (p + 1) + 1) 0 - kv.getD (i + 1) 0) else 0) *
        dNfun kv k p (i + 1) xi

/-- Modelled from the spec: the vector returned by
`Bspline.diff(order=k)` evaluated at `x` — one entry per basis function of
the evaluator (`nbasis = len(knots) - p - 1`). -/
def diffModel (kv : List α) (p k : ℕ) (x : α) : List α :=
  (List.range (kv.length - 1 - p)).map (fun i => dNfun kv k p i x)

/-- `splinelab.spcol` (src/bspline/splinelab.py:185-220): one row per
collocation site; row `i` is `B.diff(order=m[i])` evaluated at `tau[i]`,
where `m = knt2mlt(tau)`.  (The dummy evaluation `B(0.)` only reads off the
basis count, which equals the row length by construction — see the claim
theorem.) -/
def spcol (knots : List α) (order : ℕ) (tau : List α) : List (List α) :=
  let m := knt2mlt tau
  (tau.zip m).map (fun tm => diffModel knots order tm.2 tm.1)

/-- The multiplicity of site `i` as the claim states it: the count of equal
immediately preceding sites (`0` for a first occurrence). -/
def multSpec (t : List α) : ℕ → ℕ
  | 0 => 0
  | i + 1 => if t.getD (i + 1) 0 = t.getD i 0 then multSpec t i + 1 else 0


lemma length_basis0 (kv : List α) (xi : α) :
    (basis0 kv xi).length = kv.length - 1 := by
  simp [basis0]

lemma length_basisAux (kv : List α) (s : ℕ) (xi : α) (cd : Bool) :
    ∀ q : ℕ, (basisAux kv s xi cd q).length = kv.length - 1 - q := by
  intro q
  induction q generalizing cd with
  | zero => simpa using length_basis0 kv xi
  | succ p ih =>
    simp only [basisAux, List.length_zipWith, List.length_dropLast,
      List.length_map, List.length_take, List.length_drop, ih]
    split <;>
      simp only [List.length_map, List.length_zipWith, List.length_take,
        List.length_drop, List.length_dropLast] <;> omega

lemma length_evaluate (kv : List α) (p : ℕ) (xi : α) :
    (evaluate kv p xi).length = kv.length - 1 - p :=
  length_basisAux kv p xi false p

lemma length_d (kv : List α) (p : ℕ) (xi : α) :
    (d kv p xi).length = kv.length - 1 - p :=
  length_basisAux kv p xi true p

/-- The order-0 entries are the half-open-interval indicators. -/
lemma basis0_getD (kv : List α) (xi : α) (i : ℕ) (hi : i + 1 < kv.length) :
    (basis0 kv xi).getD i 0 =
      if kv.getD i 0 ≤ xi ∧ xi < kv.getD (i + 1) 0 then 1 else 0 := by
  have hlen : i < (basis0 kv xi).length := by rw [length_basis0]; omega
  rw [List.getD_eq_getElem _ _ hlen]
  simp only [basis0, List.getElem_zipWith, List.getElem_dropLast,
    List.getElem_drop]
  rw [List.getD_eq_getElem _ _ (by omega : i < kv.length),
    List.getD_eq_getElem _ _ hi]
  simp [Nat.add_comm]

/-- Entrywise bridge: the non-derivative recursion of `__basis` computes the
scalar Cox–de Boor values `Nfun` (independently of the configured order
`s = self.p`, which the non-derivative branch never consults). -/
lemma basisAux_false_getD (kv : List α) (s : ℕ) (xi : α) :
    ∀ (q i : ℕ), i + q + 1 < kv.length →
      (basisAux kv s xi false q).getD i 0 = Nfun kv q i xi := by
  intro q
  induction q with
  | zero =>
    intro i hi
    simpa [basisAux, Nfun] using basis0_getD kv xi i (by omega)
  | succ p ih =>
    intro i hi
    have hlen : i < (basisAux kv s xi false (p + 1)).length := by
      rw [length_basisAux]; omega
    rw [List.getD_eq_getElem _ _ hlen]
    have hprev : ∀ j : ℕ, j + p + 1 < kv.length →
        ∀ hj : j < (basisAux kv s xi false p).length,
        (basisAux kv s xi false p)[j] = Nfun kv p j xi := by
      intro j hjlt hj
      rw [← List.getD_eq_getElem _ _ hj]
      exact ih j hjlt
    simp only [basisAux, Bool.false_eq_true, false_and, if_false,
      List.getElem_zipWith, List.getElem_dropLast, List.getElem_map,
      List.getElem_take, List.getElem_drop,
      show ∀ j : ℕ, 1 + j = j + 1 from fun j => by omega]
    rw [hprev i (by omega), hprev (i + 1) (by omega)]
    · rw [Nfun]
      simp only [term1, term2]
      rw [List.getD_eq_getElem _ _ (by omega : i < kv.length),
        List.getD_eq_getElem _ _ (by omega : i + 1 < kv.length),
        List.getD_eq_getElem _ _ (by omega : i + (p + 1) < kv.length),
        List.getD_eq_getElem _ _ (by omega : i + (p + 1) + 1 < kv.length)]
      simp only [show p + 1 + i = i + (p + 1) by omega,
        show p + 2 + i = i + (p + 1) + 1 by omega]

/-- Entrywise content of `evaluate`. -/
lemma evaluate_getD (kv : List α) (p : ℕ) (xi : α) (i : ℕ)
    (hi : i + p + 1 < kv.length) :
    (evaluate kv p xi).getD i 0 = Nfun kv p i xi :=
  basisAux_false_getD kv p xi p i hi

/-- Entrywise bridge for the derivative evaluation `d`: at order `p ≥ 1` the
outermost level uses the constant numerators `p` and `-p`, over the ordinary
order-`(p-1)` values. -/
lemma d_getD (kv : List α) (p : ℕ) (hp : 1 ≤ p) (xi : α) (i : ℕ)
    (hi : i + p + 1 < kv.length) :
    (d kv p xi).getD i 0 = dval kv p i xi := by
  obtain ⟨q, rfl⟩ : ∃ q, p = q + 1 := ⟨p - 1, by omega⟩
  have hlen : i < (d kv (q + 1) xi).length := by rw [length_d]; omega
  rw [List.getD_eq_getElem _ _ hlen]
  have hprev : ∀ j : ℕ, j + q + 1 < kv.length →
      ∀ hj : j < (basisAux kv (q + 1) xi false q).length,
      (basisAux kv (q + 1) xi false q)[j] = Nfun kv q j xi := by
    intro j hjlt hj
    rw [← List.getD_eq_getElem _ _ hj]
    exact basisAux_false_getD kv (q + 1) xi q j hjlt
  simp only [d, basisAux, true_and, eq_self_iff_true, if_true, ite_true,
    List.getElem_zipWith, List.getElem_dropLast, List.getElem_map,
    List.getElem_take, List.getElem_drop,
    show ∀ j : ℕ, 1 + j = j + 1 from fun j => by omega]
  rw [hprev i (by omega), hprev (i + 1) (by omega)]
  · rw [dval]
    simp only [Nat.add_sub_cancel]
    rw [List.getD_eq_getElem _ _ (by omega : i < kv.length),
      List.getD_eq_getElem _ _ (by omega : i + 1 < kv.length),
      List.getD_eq_getElem _ _ (by omega : i + (q + 1) < kv.length),
      List.getD_eq_getElem _ _ (by omega : i + (q + 1) + 1 < kv.length)]
    push_cast
    simp only [show q + 1 + i = i + (q + 1) by omega,
      show q + 2 + i = i + (q + 1) + 1 by omega]

/-! ## Facts about the basis for non-decreasing knot vectors -/

/-- Monotonicity of in-range entries of a sorted list. -/
lemma getD_mono {kv : List α} (hsort : List.Sorted (· ≤ ·) kv) {a b : ℕ}
    (hab : a ≤ b) (hb : b < kv.length) : kv.getD a 0 ≤ kv.getD b 0 := by
  rw [List.getD_eq_getElem _ _ (lt_of_le_of_lt hab hb),
    List.getD_eq_getElem _ _ hb]
  rcases eq_or_lt_of_le hab with rfl | hlt
  · exact le_refl _
  · exact List.pairwise_iff_getElem.mp hsort a b _ _ hlt

/-- Local support: for a sorted knot vector, the `j`-th order-`q` basis
function vanishes outside `[knot[j], knot[j+q+1])`. -/
lemma Nfun_support {kv : List α} (hsort : List.Sorted (· ≤ ·) kv) :
    ∀ (q j : ℕ), j + q + 1 < kv.length → ∀ xi : α,
      (xi < kv.getD j 0 ∨ kv.getD (j + q + 1) 0 ≤ xi) → Nfun kv q j xi = 0 := by
  intro q
  induction q with
  | zero =>
    intro j hj xi hout
    rw [Nfun, if_neg]
    rcases hout with h | h
    · exact fun hc => absurd hc.1 (not_le.mpr h)
    · exact fun hc => absurd hc.2 (not_lt.mpr h)
  | succ q ih =>
    intro j hj xi hout
    have h1 : Nfun kv q j xi = 0 := by
      refine ih j (by omega) xi ?_
      rcases hout with h | h
      · exact Or.inl h
      · exact Or.inr (le_trans (getD_mono hsort (by omega) (by omega)) h)
    have h2 : Nfun kv q (j + 1) xi = 0 := by
      refine ih (j + 1) (by omega) xi ?_
      rcases hout with h | h
      · exact Or.inl (lt_of_lt_of_le h (getD_mono hsort (by omega) (by omega)))
      · exact Or.inr (by rw [show j + 1 + q + 1 = j + (q + 1) + 1 by omega]; exact h)
    rw [Nfun, h1, h2, mul_zero, mul_zero, add_zero]

/-- For a sorted knot vector and `knot[0] ≤ xi < knot[m-1]`, exactly one
order-0 basis value equals `1` and all others vanish. -/
lemma Nfun_zero_exists_unique {kv : List α} (hsort : List.Sorted (· ≤ ·) kv)
    {xi : α} (h0 : kv.getD 0 0 ≤ xi) (h1 : xi < kv.getD (kv.length - 1) 0) :
    ∃ i₀ < kv.length - 1, Nfun kv 0 i₀ xi = 1 ∧
      ∀ j < kv.length - 1, j ≠ i₀ → Nfun kv 0 j xi = 0 := by
  classical
  have hm : 2 ≤ kv.length := by
    by_contra hc
    push_neg at hc
    interval_cases h : kv.length <;> simp_all <;> exact absurd (lt_of_le_of_lt h0 h1) (lt_irrefl _)
  have hex : ∃ j, xi < kv.getD j 0 := ⟨kv.length - 1, h1⟩
  set j₀ := Nat.find hex with hj₀
  have hQ : xi < kv.getD j₀ 0 := Nat.find_spec hex
  have hmin : ∀ j < j₀, ¬ xi < kv.getD j 0 := fun j hj => Nat.find_min hex hj
  have hj₀pos : 1 ≤ j₀ := by
    rcases Nat.eq_zero_or_pos j₀ with h | h
    · exact absurd (h ▸ hQ) (not_lt.mpr h0)
    · exact h
  have hj₀le : j₀ ≤ kv.length - 1 := Nat.find_le h1
  refine ⟨j₀ - 1, by omega, ?_, ?_⟩
  · rw [Nfun, if_pos]
    constructor
    · exact not_lt.mp (hmin (j₀ - 1) (by omega))
    · exact (by rw [show j₀ - 1 + 1 = j₀ by omega]; exact hQ)
  · intro j hj hne
    rw [Nfun, if_neg]
    rintro ⟨hle, hlt⟩
    rcases lt_or_gt_of_ne hne with hlt2 | hgt
    · exact hmin (j + 1) (by omega) hlt
    · exact absurd (le_trans (getD_mono hsort (by omega : j₀ ≤ j) (by omega)) hle)
        (not_le.mpr hQ)

/-- Sum of a list as a `Finset.range` sum of its `getD` entries. -/
lemma list_sum_eq_range_sum (l : List α) :
    l.sum = ∑ i ∈ Finset.range l.length, l.getD i 0 := by
  induction l with
  | nil => simp
  | cons a l ih =>
    rw [List.sum_cons, List.length_cons, Finset.sum_range_succ']
    simp [ih, add_comm]

/-- Partition of unity for the scalar recursion: for a sorted knot vector and
`knot[q] ≤ xi < knot[m-1-q]`, the order-`q` basis values sum to `1`. -/
lemma Nfun_partition {kv : List α} (hsort : List.Sorted (· ≤ ·) kv) (xi : α) :
    ∀ q : ℕ, q + 1 < kv.length → kv.getD q 0 ≤ xi →
      xi < kv.getD (kv.length - 1 - q) 0 →
      ∑ i ∈ Finset.range (kv.length - 1 - q), Nfun kv q i xi = 1 := by
  intro q
  induction q with
  | zero =>
    intro hq hx1 hx2
    obtain ⟨i₀, hi₀, hone, hzero⟩ := Nfun_zero_exists_unique hsort hx1
      (by simpa using hx2)
    rw [Finset.sum_eq_single_of_mem i₀ (Finset.mem_range.mpr (by simpa using hi₀))]
    · exact hone
    · intro j hj hne
      exact hzero j (by simpa using Finset.mem_range.mp hj) hne
  | succ q ih =>
    intro hq hx1 hx2
    set m := kv.length with hm
    have hq2 : q + 2 < m := hq
    have hx1' : kv.getD q 0 ≤ xi :=
      le_trans (getD_mono hsort (by omega) (by omega)) hx1
    have hx2' : xi < kv.getD (m - 1 - q) 0 :=
      lt_of_lt_of_le hx2 (getD_mono hsort (by omega) (by omega))
    have hsum_q := ih (by omega) hx1' hx2'
    obtain ⟨n₀, hn₀⟩ : ∃ n₀, m - 1 - (q + 1) = n₀ + 1 := ⟨m - 2 - (q + 1), by omega⟩
    have hN0 : Nfun kv q 0 xi = 0 :=
      Nfun_support hsort q 0 (by omega) xi (Or.inr (by simpa using hx1))
    have hNtop : Nfun kv q (n₀ + 1) xi = 0 := by
      refine Nfun_support hsort q (n₀ + 1) (by omega) xi (Or.inl ?_)
      rw [show n₀ + 1 = m - 1 - (q + 1) by omega]
      exact hx2
    have hmid : ∀ i ∈ Finset.range n₀,
        (term1 kv (q + 1) (i + 1) xi + term2 kv (q + 1) i xi) *
          Nfun kv q (i + 1) xi = Nfun kv q (i + 1) xi := by
      intro i hi
      have hiu : i < n₀ := Finset.mem_range.mp hi
      by_cases hden : kv.getD (i + 1 + (q + 1)) 0 - kv.getD (i + 1) 0 = 0
      · have hzero : Nfun kv q (i + 1) xi = 0 := by
          refine Nfun_support hsort q (i + 1) (by omega) xi ?_
          rcases le_or_lt (kv.getD (i + 1) 0) xi with h | h
          · refine Or.inr ?_
            rw [show i + 1 + q + 1 = i + 1 + (q + 1) by omega]
            rw [show kv.getD (i + 1 + (q + 1)) 0 = kv.getD (i + 1) 0 by linarith]
            exact h
          · exact Or.inl h
        rw [hzero, mul_zero]
      · have e1 : term1 kv (q + 1) (i + 1) xi =
            (xi - kv.getD (i + 1) 0) / (kv.getD (i + 1 + (q + 1)) 0 - kv.getD (i + 1) 0) := by
          rw [term1, if_pos hden]
        have e2 : term2 kv (q + 1) i xi =
            (kv.getD (i + 1 + (q + 1)) 0 - xi) /
              (kv.getD (i + 1 + (q + 1)) 0 - kv.getD (i + 1) 0) := by
          rw [term2, show i + (q + 1) + 1 = i + 1 + (q + 1) by omega, if_pos hden]
        rw [e1, e2, div_add_div_same, show xi - kv.getD (i + 1) 0 +
          (kv.getD (i + 1 + (q + 1)) 0 - xi) =
          kv.getD (i + 1 + (q + 1)) 0 - kv.getD (i + 1) 0 by ring,
          div_self hden, one_mul]
    calc ∑ i ∈ Finset.range (m - 1 - (q + 1)), Nfun kv (q + 1) i xi
        = ∑ i ∈ Finset.range (n₀ + 1),
            (term1 kv (q + 1) i xi * Nfun kv q i xi +
             term2 kv (q + 1) i xi * Nfun kv q (i + 1) xi) := by
          rw [hn₀]; rfl
      _ = (∑ i ∈ Finset.range (n₀ + 1), term1 kv (q + 1) i xi * Nfun kv q i xi) +
          (∑ i ∈ Finset.range (n₀ + 1), term2 kv (q + 1) i xi * Nfun kv q (i + 1) xi) := by
          rw [Finset.sum_add_distrib]
      _ = ((∑ i ∈ Finset.range n₀, term1 kv (q + 1) (i + 1) xi * Nfun kv q (i + 1) xi) +
            term1 kv (q + 1) 0 xi * Nfun kv q 0 xi) +
          ((∑ i ∈ Finset.range n₀, term2 kv (q + 1) i xi * Nfun kv q (i + 1) xi) +
            term2 kv (q + 1) n₀ xi * Nfun kv q (n₀ + 1) xi) := by
          rw [Finset.sum_range_succ' (fun i => term1 kv (q + 1) i xi * Nfun kv q i xi) n₀,
            Finset.sum_range_succ (fun i => term2 kv (q + 1) i xi * Nfun kv q (i + 1) xi) n₀]
      _ = ∑ i ∈ Finset.range n₀,
            (term1 kv (q + 1) (i + 1) xi + term2 kv (q + 1) i xi) * Nfun kv q (i + 1) xi := by
          rw [hN0, hNtop, mul_zero, mul_zero, add_zero, add_zero, ← Finset.sum_add_distrib]
          exact Finset.sum_congr rfl (fun i _ => by ring)
      _ = ∑ i ∈ Finset.range n₀, Nfun kv q (i + 1) xi :=
          Finset.sum_congr rfl hmid
      _ = 1 := by
          have expand : ∑ i ∈ Finset.range (m - 1 - q), Nfun kv q i xi =
              Nfun kv q 0 xi + ((∑ i ∈ Finset.range n₀, Nfun kv q (i + 1) xi) +
                Nfun kv q (n₀ + 1) xi) := by
            rw [show m - 1 - q = n₀ + 1 + 1 by omega,
              Finset.sum_range_succ' (fun i => Nfun kv q i xi) (n₀ + 1),
              Finset.sum_range_succ (fun i => Nfun kv q (i + 1) xi) n₀]
            ring
          rw [expand, hN0, hNtop, zero_add, add_zero] at hsum_q
          exact hsum_q

/-- All-zero vectors propagate through every recursion level of `__basis`,
for both the value and the derivative branch. -/
lemma basisAux_all_zero {kv : List α} {s : ℕ} {xi : α}
    (hz : ∀ x ∈ basis0 kv xi, x = 0) :
    ∀ (q : ℕ) (cd : Bool), ∀ x ∈ basisAux kv s xi cd q, x = 0 := by
  intro q
  induction q with
  | zero => intro cd x hx; exact hz x hx
  | succ p ih =>
    intro cd x hx
    obtain ⟨i, hi, rfl⟩ := List.mem_iff_getElem.mp hx
    simp only [basisAux, List.getElem_zipWith, List.getElem_dropLast,
      List.getElem_drop] at hi ⊢
    rw [ih false _ (List.getElem_mem _), ih false _ (List.getElem_mem _)]
    ring

/-! ## Claim theorems -/

/-- C1: for every knot vector, the evaluation follows the Cox–de Boor
recursion: `evaluate` at order `0` is the indicator vector `basis0` of length
`m - 1` with `N_0[i] = 1` iff `knot[i] ≤ xi < knot[i+1]`, and for every order
`p ≥ 1` each entry satisfies
`N_p[i] = term1 * N_{p-1}[i] + term2 * N_{p-1}[i+1]` with
`term1 = (xi - knot[i]) / (knot[i+p] - knot[i])` and
`term2 = (knot[i+p+1] - xi) / (knot[i+p+1] - knot[i+1])`, each term being `0`
whenever its denominator is `0` (`term1`/`term2` are total functions; no
error is possible). -/
theorem claim1_cox_de_boor_recursion (kv : List ℝ) (xi : ℝ) :
    (evaluate kv 0 xi = basis0 kv xi ∧
      (basis0 kv xi).length = kv.length - 1 ∧
      ∀ i, i + 1 < kv.length → (basis0 kv xi).getD i 0 =
        if kv.getD i 0 ≤ xi ∧ xi < kv.getD (i + 1) 0 then 1 else 0) ∧
    ∀ p, 1 ≤ p → ∀ i, i + p + 1 < kv.length →
      (evaluate kv p xi).getD i 0 =
        term1 kv p i xi * (evaluate kv (p - 1) xi).getD i 0 +
        term2 kv p i xi * (evaluate kv (p - 1) xi).getD (i + 1) 0 := by
  refine ⟨⟨rfl, length_basis0 kv xi, fun i hi => basis0_getD kv xi i hi⟩, ?_⟩
  intro p hp i hi
  obtain ⟨q, rfl⟩ : ∃ q, p = q + 1 := ⟨p - 1, by omega⟩
  rw [evaluate_getD kv (q + 1) xi i hi, Nat.add_sub_cancel,
    evaluate_getD kv q xi i (by omega), evaluate_getD kv q xi (i + 1) (by omega)]
  rfl

/-- Witness for C1 at `kv = [0,1,2,3]`, `p = 1`, `i = 0`, `xi = 1/2`. -/
theorem claim1_cox_de_boor_recursion_witness :
    (0 : ℕ) + 1 + 1 < ([(0 : ℝ), 1, 2, 3] : List ℝ).length ∧
    (evaluate [(0 : ℝ), 1, 2, 3] 1 (1 / 2)).getD 0 0 =
      term1 [(0 : ℝ), 1, 2, 3] 1 0 (1 / 2) *
        (evaluate [(0 : ℝ), 1, 2, 3] 0 (1 / 2)).getD 0 0 +
      term2 [(0 : ℝ), 1, 2, 3] 1 0 (1 / 2) *
        (evaluate [(0 : ℝ), 1, 2, 3] 0 (1 / 2)).getD 1 0 :=
  ⟨by norm_num,
    (claim1_cox_de_boor_recursion [(0 : ℝ), 1, 2, 3] (1 / 2)).2 1 (by norm_num)
      0 (by norm_num)⟩

/-- C2 counterexample: `kv = [0,1,2]` is non-decreasing, `xi = 1/2` is
strictly inside the knot domain `(0, 2)`, and yet the order-1 basis vector
sums to `1/2`, not `1` (the knot vector is not clamped, so partition of unity
fails near the ends of the domain). -/
theorem claim2_counterexample :
    List.Sorted (· ≤ ·) [(0 : ℝ), 1, 2] ∧
    (0 : ℝ) < 1 / 2 ∧ (1 / 2 : ℝ) < 2 ∧
    (evaluate [(0 : ℝ), 1, 2] 1 (1 / 2)).sum = 1 / 2 ∧
    (evaluate [(0 : ℝ), 1, 2] 1 (1 / 2)).sum ≠ 1 := by
  refine ⟨?_, by norm_num, by norm_num, ?_, ?_⟩
  · norm_num [List.sorted_cons]
  · norm_num [evaluate, basisAux, basis0]
  · norm_num [evaluate, basisAux, basis0]

/-- C2 (amended): for a non-decreasing knot vector of length `m` and any
order `p` with `p + 1 < m`, the basis vector returned by `evaluate(xi)` sums
to exactly `1` for every `xi` with `knot[p] ≤ xi < knot[m-1-p]` (the interior
of the support region; for clamped knot vectors produced by `augment` this is
the whole knot domain). -/
theorem claim2_partition_of_unity {kv : List ℝ} (hsort : List.Sorted (· ≤ ·) kv)
    (p : ℕ) (xi : ℝ) (hp : p + 1 < kv.length) (h1 : kv.getD p 0 ≤ xi)
    (h2 : xi < kv.getD (kv.length - 1 - p) 0) :
    (evaluate kv p xi).sum = 1 := by
  rw [list_sum_eq_range_sum, length_evaluate]
  rw [Finset.sum_congr rfl
    (fun i hi => evaluate_getD kv p xi i
      (by have := Finset.mem_range.mp hi; omega))]
  exact Nfun_partition hsort xi p hp h1 h2

/-- Witness for C2 (amended) at the clamped knot vector `[0,0,1,1]`,
order `1`, `xi = 1/2`. -/
theorem claim2_partition_of_unity_witness :
    (evaluate [(0 : ℝ), 0, 1, 1] 1 (1 / 2)).sum = 1 :=
  claim2_partition_of_unity (by norm_num [List.sorted_cons]) 1 (1 / 2)
    (by norm_num) (by norm_num) (by norm_num)

/-- C4 counterexample: constructing an evaluator with order `-1` does not
fail — `__init__` performs no validation, so an evaluator whose stored order
is negative *is* constructed. -/
theorem claim4_counterexample :
    Bspline.init [(0 : ℝ), 1] (-1) =
      { knot_vector := [(0 : ℝ), 1], p := -1 } ∧
    (Bspline.init [(0 : ℝ), 1] (-1)).p < 0 :=
  ⟨rfl, by norm_num [Bspline.init]⟩

/-- C4 (amended): construction never fails and performs no validation: for
every knot vector and every integer order (negative ones included), the
constructor returns an evaluator storing the knot vector and the order
unchanged.  (No `InvalidOrder` error exists in the code.) -/
theorem claim4_no_order_validation (kv : List ℝ) (order : ℤ) :
    (Bspline.init kv order).knot_vector = kv ∧
    (Bspline.init kv order).p = order :=
  ⟨rfl, rfl⟩

/-- C8 counterexample: for the knot vector `[0,1]` and query point `xi = 2`
(not coincident with any knot, in particular with none of multiplicity > 1),
the order-0 vector is `[0]`: no entry equals `1`, refuting the claim that
exactly one entry is `1.0` for every knot vector and such `xi`. -/
theorem claim8_counterexample :
    (∀ t ∈ [(0 : ℝ), 1], (2 : ℝ) ≠ t) ∧
    ¬ ∃ i < (basis0 [(0 : ℝ), 1] 2).length,
        (basis0 [(0 : ℝ), 1] 2).getD i 0 = 1 := by
  constructor
  · intro t ht
    fin_cases ht <;> norm_num
  · have h : basis0 [(0 : ℝ), 1] 2 = [0] := by norm_num [basis0]
    rw [h]
    rintro ⟨i, hi, hval⟩
    simp only [List.length_cons, List.length_nil] at hi
    interval_cases i
    norm_num at hval

/-- C8 (amended): for every non-decreasing knot vector and every `xi` inside
the half-open knot domain (`knot[0] ≤ xi < knot[m-1]`), exactly one entry of
the order-0 vector is `1` and all others are `0`; no multiplicity condition
is needed.  (For `xi` outside the half-open domain the vector is all zeros,
see C9.) -/
theorem claim8_order0_indicator {kv : List ℝ} (hsort : List.Sorted (· ≤ ·) kv)
    {xi : ℝ} (h0 : kv.getD 0 0 ≤ xi) (h1 : xi < kv.getD (kv.length - 1) 0) :
    ∃ i < (basis0 kv xi).length, (basis0 kv xi).getD i 0 = 1 ∧
      ∀ j < (basis0 kv xi).length, j ≠ i → (basis0 kv xi).getD j 0 = 0 := by
  obtain ⟨i₀, hi₀, hone, hzero⟩ := Nfun_zero_exists_unique hsort h0 h1
  rw [length_basis0]
  refine ⟨i₀, hi₀, ?_, ?_⟩
  · rw [basis0_getD kv xi i₀ (by omega)]
    exact hone
  · intro j hj hne
    rw [basis0_getD kv xi j (by omega)]
    exact hzero j hj hne

/-- Witness for C8 (amended) at `kv = [0,1]`, `xi = 1/2`. -/
theorem claim8_order0_indicator_witness :
    ∃ i < (basis0 [(0 : ℝ), 1] (1 / 2)).length,
      (basis0 [(0 : ℝ), 1] (1 / 2)).getD i 0 = 1 ∧
      ∀ j < (basis0 [(0 : ℝ), 1] (1 / 2)).length, j ≠ i →
        (basis0 [(0 : ℝ), 1] (1 / 2)).getD j 0 = 0 :=
  claim8_order0_indicator (by norm_num [List.sorted_cons]) (by norm_num)
    (by norm_num)

/-- C9: for a non-decreasing knot vector and any `xi` outside the half-open
knot span (`xi < knot[0]`, or `xi ≥ knot[m-1]` — including `xi` equal to the
last knot), the order-0 basis is all zeros, and consequently `evaluate` and
`d` return all-zero vectors for every order; in particular the basis sums to
`0`, not `1`, at the right endpoint of the knot domain. -/
theorem claim9_outside_domain_zero {kv : List ℝ} (hsort : List.Sorted (· ≤ ·) kv)
    {xi : ℝ} (hout : xi < kv.getD 0 0 ∨ kv.getD (kv.length - 1) 0 ≤ xi)
    (p : ℕ) :
    (∀ x ∈ basis0 kv xi, x = 0) ∧
    (∀ x ∈ evaluate kv p xi, x = 0) ∧ (∀ x ∈ d kv p xi, x = 0) ∧
    (evaluate kv p xi).sum = 0 ∧ (d kv p xi).sum = 0 := by
  have hz : ∀ x ∈ basis0 kv xi, x = 0 := by
    intro x hx
    obtain ⟨i, hi, rfl⟩ := List.mem_iff_getElem.mp hx
    rw [length_basis0] at hi
    rw [← List.getD_eq_getElem _ _ (by rw [length_basis0]; omega),
      basis0_getD kv xi i (by omega), if_neg]
    rintro ⟨hle, hlt⟩
    rcases hout with h | h
    · have : kv.getD 0 0 ≤ kv.getD i 0 := getD_mono hsort (Nat.zero_le i) (by omega)
      linarith
    · have : kv.getD (i + 1) 0 ≤ kv.getD (kv.length - 1) 0 :=
        getD_mono hsort (by omega) (by omega)
      linarith
  refine ⟨hz, basisAux_all_zero hz p false, basisAux_all_zero hz p true,
    List.sum_eq_zero (basisAux_all_zero hz p false),
    List.sum_eq_zero (basisAux_all_zero hz p true)⟩

/-- Witness for C9 at `kv = [0,1,2]`, `p = 1`, `xi = 2` (the right
endpoint itself). -/
theorem claim9_outside_domain_zero_witness :
    (∀ x ∈ evaluate [(0 : ℝ), 1, 2] 1 2, x = 0) ∧
    (evaluate [(0 : ℝ), 1, 2] 1 2).sum = 0 := by
  have h := @claim9_outside_domain_zero [(0 : ℝ), 1, 2]
    (by norm_num [List.sorted_cons]) 2 (by norm_num) 1
  exact ⟨h.2.1, h.2.2.2.1⟩

/-! ## Knot augmentation (C7) -/

/-- `getD` at position `j ≤ n` of `replicate n c ++ rest` is `c`, provided
`rest` starts with `c`. -/
lemma getD_replicate_append {c : α} : ∀ (n : ℕ) (rest : List α), rest ≠ [] →
    rest.headD 0 = c → ∀ j ≤ n, (List.replicate n c ++ rest).getD j 0 = c := by
  intro n
  induction n with
  | zero =>
    intro rest hne hhead j hj
    interval_cases j
    cases rest with
    | nil => exact absurd rfl hne
    | cons a l => simpa using hhead
  | succ n ih =>
    intro rest hne hhead j hj
    rw [List.replicate_succ, List.cons_append]
    cases j with
    | zero => rfl
    | succ j => simpa using ih rest hne hhead j (by omega)

/-- C7 (amended): `augment` fails with `InvalidShape` on every rank-2 input;
on every *nonempty* rank-1 input it succeeds, returning the knot list with
`order` copies of the first/last knot prepended/appended, of length
`len(knots) + 2*order`, whose first and last `order + 1` entries equal
`knots[0]` and `knots[-1]` respectively (the last entries read through
`List.reverse`). -/
theorem claim7_augment (order : ℕ) :
    (∀ M : List (List ℝ), augknt (.r2 M) order = .error .invalidShape) ∧
    ∀ knots : List ℝ, knots ≠ [] →
      ∃ res : List ℝ,
        augknt (.r1 knots) order = .ok res ∧
        res = List.replicate order (knots.headD 0) ++ knots ++
          List.replicate order (knots.getLastD 0) ∧
        res.length = knots.length + 2 * order ∧
        (∀ j ≤ order, res.getD j 0 = knots.headD 0) ∧
        (∀ j ≤ order, res.reverse.getD j 0 = knots.getLastD 0) := by
  refine ⟨fun M => rfl, fun knots hne => ?_⟩
  refine ⟨_, by rw [augknt, if_neg hne], rfl, ?_, ?_, ?_⟩
  · simp [List.length_replicate, List.length_append]; omega
  · intro j hj
    rw [List.append_assoc]
    refine getD_replicate_append order
      (knots ++ List.replicate order (knots.getLastD 0)) (by simp [hne]) ?_ j hj
    cases knots with
    | nil => exact absurd rfl hne
    | cons a l => simp
  · intro j hj
    simp only [List.reverse_append, List.reverse_replicate, List.append_assoc]
    refine getD_replicate_append order
      (knots.reverse ++ List.replicate order (knots.headD 0)) (by simp [hne])
      ?_ j hj
    have hrev : knots.reverse ≠ [] := by simp [hne]
    rw [List.headD_eq_head?, List.head?_append_of_ne_nil _ hrev,
      ← List.getLast?_eq_head?_reverse]
    cases h : knots.getLast? with
    | none => exact absurd (List.getLast?_eq_none_iff.mp h) hne
    | some a => simp [List.getLastD_eq_getLast?, h]

/-- C7 counterexample: on the empty (one-dimensional) input, `augment`
raises `IndexError` (Python evaluates `knots[0]` eagerly), so it does not
return a sequence of length `0 + 2*order`. -/
theorem claim7_counterexample :
    augknt (.r1 ([] : List ℝ)) 1 = .error .indexError ∧
    ∀ res : List ℝ, augknt (.r1 ([] : List ℝ)) 1 ≠ .ok res :=
  ⟨rfl, fun res h => by simp [augknt] at h⟩

/-- Witness for C7 at `knots = [0,1,2]`, `order = 2`. -/
theorem claim7_augment_witness :
    ∃ res : List ℝ,
      augknt (.r1 [(0 : ℝ), 1, 2]) 2 = .ok res ∧
      res = List.replicate 2 (([(0 : ℝ), 1, 2]).headD 0) ++ [(0 : ℝ), 1, 2] ++
        List.replicate 2 (([(0 : ℝ), 1, 2]).getLastD 0) ∧
      res.length = ([(0 : ℝ), 1, 2]).length + 2 * 2 ∧
      (∀ j ≤ 2, res.getD j 0 = ([(0 : ℝ), 1, 2]).headD 0) ∧
      (∀ j ≤ 2, res.reverse.getD j 0 = ([(0 : ℝ), 1, 2]).getLastD 0) :=
  (claim7_augment 2).2 [(0 : ℝ), 1, 2] (by simp)

/-! ## Automatic knot generation (C5) -/

/-- A list is fixed by sorting iff it is non-decreasing (this is the meaning
of the Python check `(tau == sorted(tau)).all()`). -/
lemma insertionSort_eq_self_iff {γ : Type*} [LinearOrder γ] {tau : List γ} :
    tau.insertionSort (· ≤ ·) = tau ↔ List.Sorted (· ≤ ·) tau := by
  constructor
  · intro h
    rw [← h]
    exact List.sorted_insertionSort _ tau
  · exact List.Sorted.insertionSort_eq

lemma aveknt_pos (t : List α) (k : ℕ) (hk : k ≠ 0) :
    aveknt t k = .ok (avekntList t k) := by
  rw [aveknt, if_neg]
  simp [hk]

lemma aveknt_zero_err (t : List α) : aveknt t 0 = .error .zeroDivision := by
  rw [aveknt, if_pos]
  exact ⟨rfl, by omega⟩

/-- Closed form of `aptknt` on sorted input of length ≥ 2: either the
repeated-site check fires, or the construction succeeds.  (The
`ZeroDivisionError` path `k = 1` is unreachable here because `k = 1` with
`len(tau) ≥ 2` always triggers the repeated-site check `tau[i] == tau[i]`.) -/
lemma aptknt_sorted_eq (tau : List α) (order : ℕ) (hlen : 2 ≤ tau.length)
    (hsort : List.Sorted (· ≤ ·) tau) :
    aptknt tau order =
      if ∃ i < tau.length - min (order + 1) tau.length,
          tau.getD (i + min (order + 1) tau.length - 1) 0 = tau.getD i 0 then
        .error .repeatedSiteViolation
      else
        .ok (List.replicate (min (order + 1) tau.length) (tau.headD 0) ++
          avekntList ((tau.drop 1).dropLast) (min (order + 1) tau.length - 1) ++
          List.replicate (min (order + 1) tau.length) (tau.getLastD 0)) := by
  have hne : tau ≠ [] := by
    intro h0
    rw [h0] at hlen
    simp at hlen
  simp only [aptknt]
  rw [if_neg (not_not_intro (insertionSort_eq_self_iff.mpr hsort))]
  by_cases hv : ∃ i < tau.length - min (order + 1) tau.length,
      tau.getD (i + min (order + 1) tau.length - 1) 0 = tau.getD i 0
  · rw [if_pos hv, if_pos hv]
  · rw [if_neg hv, if_neg hv, if_neg hne]
    have hk1 : min (order + 1) tau.length - 1 ≠ 0 := by
      intro h0
      apply hv
      have hk : min (order + 1) tau.length = 1 := by omega
      exact ⟨0, by omega, by simp [hk]⟩
    rw [aveknt_pos _ _ hk1]

/-- C5 (amended): for every one-dimensional site sequence `tau` *of length at
least 2* and every order ≥ 0, with effective `k = min(order+1, len(tau))`:
`aptknt` fails with `UnsortedSites` iff `tau` is not non-decreasing;
otherwise it fails with `RepeatedSiteViolation` iff `tau[i+k-1] == tau[i]`
for some `i < len(tau) - k`; otherwise it succeeds and returns `k` copies of
`tau[0]`, then `runningAverage(tau[1:-1], k-1)`, then `k` copies of
`tau[-1]`. -/
theorem claim5_aptknt (tau : List ℝ) (order : ℕ) (hlen : 2 ≤ tau.length) :
    (aptknt tau order = .error .unsortedSites ↔ ¬ List.Sorted (· ≤ ·) tau) ∧
    (List.Sorted (· ≤ ·) tau →
      (aptknt tau order = .error .repeatedSiteViolation ↔
        ∃ i < tau.length - min (order + 1) tau.length,
          tau.getD (i + min (order + 1) tau.length - 1) 0 = tau.getD i 0)) ∧
    (List.Sorted (· ≤ ·) tau →
      (¬ ∃ i < tau.length - min (order + 1) tau.length,
          tau.getD (i + min (order + 1) tau.length - 1) 0 = tau.getD i 0) →
      aptknt tau order =
        .ok (List.replicate (min (order + 1) tau.length) (tau.headD 0) ++
          avekntList ((tau.drop 1).dropLast) (min (order + 1) tau.length - 1) ++
          List.replicate (min (order + 1) tau.length) (tau.getLastD 0))) := by
  refine ⟨?_, ?_, ?_⟩
  · by_cases hs : List.Sorted (· ≤ ·) tau
    · constructor
      · intro h
        rw [aptknt_sorted_eq tau order hlen hs] at h
        exfalso
        by_cases hv : ∃ i < tau.length - min (order + 1) tau.length,
            tau.getD (i + min (order + 1) tau.length - 1) 0 = tau.getD i 0
        · rw [if_pos hv] at h
          simp at h
        · rw [if_neg hv] at h
          simp at h
      · intro hns
        exact absurd hs hns
    · refine ⟨fun _ => hs, fun _ => ?_⟩
      simp only [aptknt]
      rw [if_pos (fun he => hs (insertionSort_eq_self_iff.mp he))]
  · intro hs
    rw [aptknt_sorted_eq tau order hlen hs]
    by_cases hv : ∃ i < tau.length - min (order + 1) tau.length,
        tau.getD (i + min (order + 1) tau.length - 1) 0 = tau.getD i 0
    · rw [if_pos hv]
      exact ⟨fun _ => hv, fun _ => rfl⟩
    · rw [if_neg hv]
      exact ⟨fun h => by simp at h, fun h => absurd h hv⟩
  · intro hs hv
    rw [aptknt_sorted_eq tau order hlen hs, if_neg hv]

/-- C5 counterexample: on a single site, `tau = [5]` with `order = 0`, the
claim's conditions for success hold (`tau` is sorted and the repeated-site
window range `[0, len(tau)-k) = [0,0)` is empty), yet the code raises
`ZeroDivisionError` from `aveknt(tau[1:-1], k-1) = aveknt([], 0)` instead of
succeeding. -/
theorem claim5_counterexample :
    List.Sorted (· ≤ ·) [(5 : ℝ)] ∧
    (¬ ∃ i < ([(5 : ℝ)]).length - min (0 + 1) ([(5 : ℝ)]).length,
      ([(5 : ℝ)]).getD (i + min (0 + 1) ([(5 : ℝ)]).length - 1) 0 =
        ([(5 : ℝ)]).getD i 0) ∧
    aptknt [(5 : ℝ)] 0 = .error .zeroDivision := by
  refine ⟨List.sorted_singleton 5, ?_, ?_⟩
  · rintro ⟨i, hi, _⟩
    simp at hi
  · simp only [aptknt]
    rw [if_neg (not_not_intro (insertionSort_eq_self_iff.mpr
      (List.sorted_singleton 5)))]
    rw [if_neg (by rintro ⟨i, hi, _⟩; simp at hi)]
    rw [if_neg (by simp : ¬([(5 : ℝ)] = []))]
    rw [show min (0 + 1) ([(5 : ℝ)]).length - 1 = 0 by simp, aveknt_zero_err]

/-- Witness for C5 at `tau = [0, 1/2, 2, 3]`, `order = 2` (so `k = 3`):
success with interior knot `runningAverage([1/2, 2], 2) = [5/4]`. -/
theorem claim5_aptknt_witness :
    aptknt [(0 : ℝ), 1 / 2, 2, 3] 2 =
      .ok (List.replicate 3 (([(0 : ℝ), 1 / 2, 2, 3]).headD 0) ++
        avekntList (([(0 : ℝ), 1 / 2, 2, 3].drop 1).dropLast) 2 ++
        List.replicate 3 (([(0 : ℝ), 1 / 2, 2, 3]).getLastD 0)) := by
  have h := (claim5_aptknt [(0 : ℝ), 1 / 2, 2, 3] 2 (by norm_num)).2.2
    (by norm_num [List.sorted_cons])
    (by
      rintro ⟨i, hi, hval⟩
      simp only [List.length_cons, List.length_nil] at hi
      have hi0 : i = 0 := by omega
      subst hi0
      norm_num at hval)
  simpa using h

lemma intCast_list_sum (l : List ℤ) :
    ((l.sum : ℤ) : ℝ) = (intsToReals l).sum := by
  induction l with
  | nil => simp [intsToReals]
  | cons a l ih => push_cast [intsToReals, List.sum_cons] at ih ⊢; simp [ih]

/-- Truncating integer division is the numpy float→int cast of the real
quotient. -/
lemma tdiv_eq_pytrunc (a : ℤ) (k : ℕ) (hk : k ≠ 0) :
    a.tdiv (k : ℤ) = pytrunc ((a : ℝ) / (k : ℝ)) := by
  have hkpos : (0 : ℝ) < (k : ℝ) := by positivity
  have hfloor : ∀ b : ℤ, ⌊((b : ℝ) / (k : ℝ))⌋ = b / (k : ℤ) := by
    intro b
    have h1 : ((((b : ℚ) / (k : ℚ)) : ℚ) : ℝ) = (b : ℝ) / (k : ℝ) := by
      push_cast
      ring
    rw [← h1, Rat.floor_cast, Rat.floor_intCast_div_natCast]
  rcases le_or_lt 0 a with ha | ha
  · rw [Int.tdiv_eq_ediv ha (by positivity), pytrunc,
      if_pos (div_nonneg (by exact_mod_cast ha) hkpos.le), hfloor]
  · have hna : (0 : ℤ) ≤ -a := by omega
    have hneg : (a : ℝ) / (k : ℝ) < 0 :=
      div_neg_of_neg_of_pos (by exact_mod_cast ha) hkpos
    rw [pytrunc, if_neg (not_le.mpr hneg)]
    have h2 : a.tdiv (k : ℤ) = -((-a).tdiv (k : ℤ)) := by
      rw [← Int.neg_tdiv, neg_neg]
    have h3 : ⌈(a : ℝ) / (k : ℝ)⌉ = -⌊-((a : ℝ) / (k : ℝ))⌋ := by
      rw [Int.floor_neg]
      ring
    rw [h2, Int.tdiv_eq_ediv hna (by positivity), h3,
      show -((a : ℝ) / (k : ℝ)) = ((-a : ℤ) : ℝ) / (k : ℝ) by push_cast; ring,
      hfloor]

/-- C10: `aveknt` at integer dtype truncates each window mean toward zero
(entrywise it stores the numpy cast of the real-arithmetic window mean, e.g.
`[1,2]` averaged over a window of `2` yields `1`, not `3/2`), and `aptknt`
inherits this truncation and the integer element type for integer sites,
because its interior knots and output dtype come from `aveknt`. -/
theorem claim10_integer_truncation :
    (∀ (t : List ℤ) (k : ℕ), k ≠ 0 → ∀ j < t.length + 1 - k,
      avekntInt t k = .ok (avekntIntList t k) ∧
      (avekntIntList t k).getD j 0 =
        pytrunc ((avekntList (intsToReals t) k).getD j 0)) ∧
    (∀ (tau : List ℤ) (order : ℕ), 2 ≤ tau.length →
      List.Sorted (· ≤ ·) tau →
      (¬ ∃ i < tau.length - min (order + 1) tau.length,
        tau.getD (i + min (order + 1) tau.length - 1) 0 = tau.getD i 0) →
      aptkntInt tau order =
        .ok (List.replicate (min (order + 1) tau.length) (tau.headD 0) ++
          avekntIntList ((tau.drop 1).dropLast)
            (min (order + 1) tau.length - 1) ++
          List.replicate (min (order + 1) tau.length) (tau.getLastD 0))) ∧
    avekntIntList [1, 2] 2 = [1] := by
  refine ⟨?_, ?_, by decide⟩
  · intro t k hk j hj
    refine ⟨by rw [avekntInt, if_neg (by simp [hk])], ?_⟩
    have hj1 : j < (avekntIntList t k).length := by
      simp only [avekntIntList, List.length_map, List.length_range]
      omega
    have hj2 : j < (avekntList (intsToReals t) k).length := by
      simp only [avekntList, intsToReals, List.length_map, List.length_range]
      omega
    rw [List.getD_eq_getElem _ _ hj1, List.getD_eq_getElem _ _ hj2]
    simp only [avekntIntList, avekntList, intsToReals, List.getElem_map,
      List.getElem_range]
    rw [← List.map_drop, ← List.map_take,
      show (fun z : ℤ => (z : ℝ)) = fun z : ℤ => ((z : ℤ) : ℝ) from rfl,
      ← intsToReals, ← intCast_list_sum, tdiv_eq_pytrunc _ _ hk]
  · intro tau order hlen hsort hv
    have hne : tau ≠ [] := by
      intro h0
      rw [h0] at hlen
      simp at hlen
    simp only [aptkntInt]
    rw [if_neg (not_not_intro (insertionSort_eq_self_iff.mpr hsort)),
      if_neg hv, if_neg hne]
    have hk1 : min (order + 1) tau.length - 1 ≠ 0 := by
      intro h0
      apply hv
      have hkk : min (order + 1) tau.length = 1 := by omega
      exact ⟨0, by omega, by simp [hkk]⟩
    rw [show avekntInt ((tau.drop 1).dropLast) (min (order + 1) tau.length - 1)
        = .ok (avekntIntList ((tau.drop 1).dropLast)
            (min (order + 1) tau.length - 1)) by
      rw [avekntInt, if_neg (by simp [hk1])]]

/-- Witness for C10 at `t = [1,2]`, `k = 2`, `j = 0`: the stored entry `1` is
the truncation of the real mean `3/2`; and at `tau = [0,1,3]`, `order = 1`
the generated knot vector has the truncated interior knot `aveknt([1],1)`. -/
theorem claim10_integer_truncation_witness :
    ((avekntIntList [1, 2] 2).getD 0 0 =
      pytrunc ((avekntList (intsToReals [1, 2]) 2).getD 0 0)) ∧
    aptkntInt [0, 1, 3] 1 =
      .ok (List.replicate 2 (([(0 : ℤ), 1, 3]).headD 0) ++
        avekntIntList (([(0 : ℤ), 1, 3].drop 1).dropLast) 1 ++
        List.replicate 2 (([(0 : ℤ), 1, 3]).getLastD 0)) := by
  constructor
  · exact ((claim10_integer_truncation.1 [1, 2] 2 (by norm_num) 0
      (by norm_num)).2)
  · have h := claim10_integer_truncation.2.1 [0, 1, 3] 1 (by norm_num)
      (by norm_num [List.sorted_cons])
      (by
        rintro ⟨i, hi, hval⟩
        simp only [List.length_cons, List.length_nil] at hi
        have hi0 : i = 0 := by omega
        subst hi0
        norm_num at hval)
    simpa using h

lemma length_knt2mltAux : ∀ (l : List α) (e : Option α) (c : ℕ),
    (knt2mltAux e c l).length = l.length := by
  intro l
  induction l with
  | nil => intro e c; rfl
  | cons x xs ih => intro e c; simp [knt2mltAux, ih]

lemma knt2mltAux_getD_succ : ∀ (xs : List α) (e : Option α) (c i : ℕ),
    i + 1 < xs.length →
    (knt2mltAux e c xs).getD (i + 1) 0 =
      if xs.getD (i + 1) 0 = xs.getD i 0 then
        (knt2mltAux e c xs).getD i 0 + 1
      else 0 := by
  intro xs
  induction xs with
  | nil => intro e c i h; simp at h
  | cons x ys ih =>
    intro e c i h
    cases i with
    | zero =>
      cases ys with
      | nil => simp at h
      | cons y zs =>
        simp [knt2mltAux]
    | succ i =>
      have hlen : i + 1 < ys.length := by
        simp only [List.length_cons] at h
        omega
      simpa [knt2mltAux] using ih (some x) (if some x = e then c + 1 else 0) i hlen

/-- The loop of `knt2mlt` computes exactly the count of equal immediately
preceding elements. -/
lemma knt2mlt_eq_multSpec (t : List α) :
    ∀ i < t.length, (knt2mlt t).getD i 0 = multSpec t i := by
  intro i
  induction i with
  | zero =>
    intro h
    cases t with
    | nil => simp at h
    | cons x xs => simp [knt2mlt, knt2mltAux, multSpec]
  | succ i ih =>
    intro h
    rw [knt2mlt, knt2mltAux_getD_succ t none 0 i h, multSpec]
    rw [← knt2mlt, ih (by omega)]

lemma length_diffModel (kv : List α) (p k : ℕ) (x : α) :
    (diffModel kv p k x).length = kv.length - 1 - p := by
  simp [diffModel]

/-- The 0-th derivative is a passthrough: `diff(order=0)` evaluates to the
plain basis vector. -/
lemma diffModel_zero (kv : List α) (p : ℕ) (x : α) :
    diffModel kv p 0 x = evaluate kv p x := by
  refine List.ext_getElem ?_ ?_
  · rw [length_diffModel, length_evaluate]
  · intro i h1 h2
    rw [← List.getD_eq_getElem _ _ h2,
      evaluate_getD kv p x i (by rw [length_evaluate] at h2; omega)]
    simp only [diffModel, List.getElem_map, List.getElem_range]
    rfl

/-- C6: for every knot vector, order, and sorted site sequence, `spcol`
returns a matrix with one row per site, each row of length equal to the
evaluator's basis count (read off by the dummy evaluation `B(0.)`), whose
row `i` is the `m_i`-th derivative (modelled from the spec, order `0` being
the plain value) of the basis vector at `tau[i]`, where `m_i` is the count
of equal immediately preceding sites. -/
theorem claim6_spcol (knots : List ℝ) (order : ℕ) (tau : List ℝ)
    (_hsort : List.Sorted (· ≤ ·) tau) :
    (spcol knots order tau).length = tau.length ∧
    (∀ row ∈ spcol knots order tau,
      row.length = (evaluate knots order 0).length) ∧
    (∀ i < tau.length, (spcol knots order tau).getD i [] =
      diffModel knots order (multSpec tau i) (tau.getD i 0)) ∧
    (∀ x : ℝ, diffModel knots order 0 x = evaluate knots order x) := by
  have hzip : (tau.zip (knt2mlt tau)).length = tau.length := by
    rw [List.length_zip, knt2mlt, length_knt2mltAux]
    omega
  refine ⟨?_, ?_, ?_, fun x => diffModel_zero knots order x⟩
  · simp only [spcol, List.length_map]
    exact hzip
  · intro row hrow
    simp only [spcol, List.mem_map] at hrow
    obtain ⟨tm, _, rfl⟩ := hrow
    rw [length_diffModel, length_evaluate]
  · intro i hi
    have hi2 : i < (spcol knots order tau).length := by
      simp only [spcol, List.length_map]
      omega
    rw [List.getD_eq_getElem _ _ hi2]
    simp only [spcol, List.getElem_map, List.getElem_zip]
    rw [← List.getD_eq_getElem _ _ (by omega : i < tau.length),
      ← List.getD_eq_getElem _ _
        (by rw [knt2mlt, length_knt2mltAux]; omega : i < (knt2mlt tau).length),
      knt2mlt_eq_multSpec tau i hi]

/-! ## First-derivative analysis (C3)

The machinery below proves that the value returned by the derivative branch
is the exact analytic derivative of each basis function at every point that
is not a knot (at knots, low-order basis functions are not differentiable —
see the C3 counterexample). -/

lemma term1_eq_rinv (kv : List α) (p j : ℕ) (x : α) :
    term1 kv p j x = (x - kv.getD j 0) * rinv (kv.getD (j + p) 0 - kv.getD j 0) := by
  by_cases h : kv.getD (j + p) 0 - kv.getD j 0 = 0
  · rw [term1, if_neg (not_not_intro h), rinv, if_neg (not_not_intro h), mul_zero]
  · rw [term1, if_pos h, rinv, if_pos h, mul_one_div]

lemma term2_eq_rinv (kv : List α) (p j : ℕ) (x : α) :
    term2 kv p j x =
      (kv.getD (j + p + 1) 0 - x) * rinv (kv.getD (j + p + 1) 0 - kv.getD (j + 1) 0) := by
  by_cases h : kv.getD (j + p + 1) 0 - kv.getD (j + 1) 0 = 0
  · rw [term2, if_neg (not_not_intro h), rinv, if_neg (not_not_intro h), mul_zero]
  · rw [term2, if_pos h, rinv, if_pos h, mul_one_div]

lemma div_ite_eq_rinv (c t : α) : (if t ≠ 0 then c / t else 0) = c * rinv t := by
  by_cases h : t = 0
  · simp [rinv, h]
  · rw [if_pos h, rinv, if_pos h, mul_one_div]

lemma dval_eq_rinv (kv : List α) (p j : ℕ) (xi : α) :
    dval kv p j xi =
      (p : α) * rinv (kv.getD (j + p) 0 - kv.getD j 0) * Nfun kv (p - 1) j xi -
      (p : α) * rinv (kv.getD (j + p + 1) 0 - kv.getD (j + 1) 0) *
        Nfun kv (p - 1) (j + 1) xi := by
  rw [dval, div_ite_eq_rinv, div_ite_eq_rinv]
  ring

lemma dval_zero_order (kv : List α) (j : ℕ) (xi : α) : dval kv 0 j xi = 0 := by
  simp [dval]

lemma hasDerivAt_term1 (kv : List ℝ) (p j : ℕ) (xi : ℝ) :
    HasDerivAt (fun x => term1 kv p j x)
      (rinv (kv.getD (j + p) 0 - kv.getD j 0)) xi := by
  by_cases h : kv.getD (j + p) 0 - kv.getD j 0 = 0
  · have heq : (fun x => term1 kv p j x) = fun _ => (0 : ℝ) :=
      funext fun x => by rw [term1, if_neg (not_not_intro h)]
    rw [heq, rinv, if_neg (not_not_intro h)]
    exact hasDerivAt_const xi 0
  · have heq : (fun x => term1 kv p j x) =
        fun x => (x - kv.getD j 0) / (kv.getD (j + p) 0 - kv.getD j 0) :=
      funext fun x => by rw [term1, if_pos h]
    rw [heq, rinv, if_pos h]
    exact ((hasDerivAt_id xi).sub_const _).div_const _

lemma hasDerivAt_term2 (kv : List ℝ) (p j : ℕ) (xi : ℝ) :
    HasDerivAt (fun x => term2 kv p j x)
      (-rinv (kv.getD (j + p + 1) 0 - kv.getD (j + 1) 0)) xi := by
  by_cases h : kv.getD (j + p + 1) 0 - kv.getD (j + 1) 0 = 0
  · have heq : (fun x => term2 kv p j x) = fun _ => (0 : ℝ) :=
      funext fun x => by rw [term2, if_neg (not_not_intro h)]
    rw [heq, rinv, if_neg (not_not_intro h), neg_zero]
    exact hasDerivAt_const xi 0
  · have heq : (fun x => term2 kv p j x) =
        fun x => (kv.getD (j + p + 1) 0 - x) / (kv.getD (j + p + 1) 0 - kv.getD (j + 1) 0) :=
      funext fun x => by rw [term2, if_pos h]
    rw [heq, rinv, if_pos h]
    have h0 := ((hasDerivAt_const xi (kv.getD (j + p + 1) 0)).sub
      (hasDerivAt_id xi)).div_const (kv.getD (j + p + 1) 0 - kv.getD (j + 1) 0)
    convert h0 using 1
    ring

/-- Away from the two knots bounding its interval, an order-0 basis function
is locally constant. -/
lemma Nfun_zero_eventually_const (kv : List ℝ) (j : ℕ) (xi : ℝ)
    (h1 : xi ≠ kv.getD j 0) (h2 : xi ≠ kv.getD (j + 1) 0) :
    (fun x => Nfun kv 0 j x) =ᶠ[nhds xi] (fun _ => Nfun kv 0 j xi) := by
  rcases lt_trichotomy xi (kv.getD j 0) with hlt | heq | hgt
  · filter_upwards [Iio_mem_nhds hlt] with x hx
    simp only [Nfun]
    rw [if_neg (fun hc => absurd hc.1 (not_le.mpr hx)),
      if_neg (fun hc => absurd hc.1 (not_le.mpr hlt))]
  · exact absurd heq h1
  · rcases lt_trichotomy xi (kv.getD (j + 1) 0) with hlt2 | heq2 | hgt2
    · filter_upwards [Ioo_mem_nhds hgt hlt2] with x hx
      simp only [Nfun]
      rw [if_pos ⟨hx.1.le, hx.2⟩, if_pos ⟨hgt.le, hlt2⟩]
    · exact absurd heq2 h2
    · filter_upwards [Ioi_mem_nhds hgt2] with x hx
      simp only [Nfun]
      rw [if_neg (fun hc => absurd hc.2 (not_lt.mpr hx.le)),
        if_neg (fun hc => absurd hc.2 (not_lt.mpr hgt2.le))]

@[simp] lemma rinv_zero : rinv (0 : α) = 0 := by simp [rinv]

lemma rinv_mul_cancel (t : α) (h : t ≠ 0) : rinv t * t = 1 := by
  rw [rinv, if_pos h, one_div, inv_mul_cancel₀ h]

/-- The inductive step of the B-spline derivative formula: blending the
level-`p` derivative values with the level-`(p+1)` coefficients yields `p`
times the level-`(p+1)` difference quotient.  (For a sorted knot vector;
degenerate spans are handled by the `0⁻¹ = 0` convention together with the
squeeze `knot[j] = knot[j+p+2] → knot[j+1] = knot[j+p+2]`.) -/
lemma key_identity {kv : List ℝ} (hsort : List.Sorted (· ≤ ·) kv) (xi : ℝ) :
    ∀ (p j : ℕ), j + p + 2 < kv.length →
      term1 kv (p + 1) j xi * dval kv p j xi +
      term2 kv (p + 1) j xi * dval kv p (j + 1) xi =
      (p : ℝ) * (rinv (kv.getD (j + p + 1) 0 - kv.getD j 0) * Nfun kv p j xi -
        rinv (kv.getD (j + p + 2) 0 - kv.getD (j + 1) 0) *
          Nfun kv p (j + 1) xi) := by
  intro p j hj
  cases p with
  | zero => simp [dval_zero_order]
  | succ q =>
    have hk01 : kv.getD j 0 ≤ kv.getD (j + 1) 0 :=
      getD_mono hsort (by omega) (by omega)
    have hk1b : kv.getD (j + 1) 0 ≤ kv.getD (j + q + 2) 0 :=
      getD_mono hsort (by omega) (by omega)
    have hkbc : kv.getD (j + q + 2) 0 ≤ kv.getD (j + q + 3) 0 :=
      getD_mono hsort (by omega) (by omega)
    have hM2 : rinv (kv.getD (j + q + 2) 0 - kv.getD (j + 1) 0) *
        (rinv (kv.getD (j + q + 2) 0 - kv.getD j 0) *
          (kv.getD (j + q + 2) 0 - kv.getD j 0)) =
        rinv (kv.getD (j + q + 2) 0 - kv.getD (j + 1) 0) *
        (rinv (kv.getD (j + q + 3) 0 - kv.getD (j + 1) 0) *
          (kv.getD (j + q + 3) 0 - kv.getD (j + 1) 0)) := by
      by_cases hA : kv.getD (j + q + 2) 0 - kv.getD j 0 = 0
      · have h1 : kv.getD (j + q + 2) 0 - kv.getD (j + 1) 0 = 0 := by linarith
        rw [h1, rinv_zero, zero_mul, zero_mul]
      · by_cases hB : kv.getD (j + q + 3) 0 - kv.getD (j + 1) 0 = 0
        · have h1 : kv.getD (j + q + 2) 0 - kv.getD (j + 1) 0 = 0 := by linarith
          rw [h1, rinv_zero, zero_mul, zero_mul]
        · rw [rinv_mul_cancel _ hA, rinv_mul_cancel _ hB]
    rw [term1_eq_rinv, term2_eq_rinv, dval_eq_rinv, dval_eq_rinv]
    simp only [Nat.add_sub_cancel]
    rw [show Nfun kv (q + 1) j xi =
        term1 kv (q + 1) j xi * Nfun kv q j xi +
        term2 kv (q + 1) j xi * Nfun kv q (j + 1) xi from rfl,
      show Nfun kv (q + 1) (j + 1) xi =
        term1 kv (q + 1) (j + 1) xi * Nfun kv q (j + 1) xi +
        term2 kv (q + 1) (j + 1) xi * Nfun kv q (j + 2) xi from rfl]
    simp only [term1_eq_rinv, term2_eq_rinv]
    simp only [show j + (q + 1 + 1) = j + q + 2 from by omega,
      show j + (q + 1 + 1) + 1 = j + q + 3 from by omega,
      show j + (q + 1) = j + q + 1 from by omega,
      show j + (q + 1) + 1 = j + q + 2 from by omega,
      show j + 1 + (q + 1) = j + q + 2 from by omega,
      show j + 1 + (q + 1) + 1 = j + q + 3 from by omega,
      show j + 1 + 1 = j + 2 from by omega]
    push_cast
    linear_combination (-((q : ℝ) + 1) * Nfun kv q (j + 1) xi) * hM2

/-- For a sorted knot vector and a query point that is not a knot, each
basis function is differentiable and its derivative is exactly the value
`dval` produced by the derivative branch of the recursion. -/
theorem Nfun_hasDerivAt {kv : List ℝ} (hsort : List.Sorted (· ≤ ·) kv)
    {xi : ℝ} (hxi : ∀ t ∈ kv, xi ≠ t) :
    ∀ (p j : ℕ), j + p + 1 < kv.length →
      HasDerivAt (fun x => Nfun kv p j x) (dval kv p j xi) xi := by
  intro p
  induction p with
  | zero =>
    intro j hj
    have h1 : xi ≠ kv.getD j 0 := by
      rw [List.getD_eq_getElem _ _ (by omega : j < kv.length)]
      exact hxi _ (List.getElem_mem _)
    have h2 : xi ≠ kv.getD (j + 1) 0 := by
      rw [List.getD_eq_getElem _ _ (by omega : j + 1 < kv.length)]
      exact hxi _ (List.getElem_mem _)
    rw [dval_zero_order]
    exact (hasDerivAt_const xi (Nfun kv 0 j xi)).congr_of_eventuallyEq
      (Nfun_zero_eventually_const kv j xi h1 h2)
  | succ p ih =>
    intro j hj
    have hd1 := ih j (by omega)
    have hd2 := ih (j + 1) (by omega)
    have hmul := ((hasDerivAt_term1 kv (p + 1) j xi).mul hd1).add
      ((hasDerivAt_term2 kv (p + 1) j xi).mul hd2)
    have heq : (fun x => Nfun kv (p + 1) j x) =
        (fun x => term1 kv (p + 1) j x * Nfun kv p j x +
          term2 kv (p + 1) j x * Nfun kv p (j + 1) x) :=
      funext fun x => by rw [Nfun]
    rw [heq]
    convert hmul using 1
    have hkey := key_identity hsort xi p j (by omega)
    rw [dval_eq_rinv kv (p + 1) j xi]
    simp only [Nat.add_sub_cancel,
      show j + (p + 1) = j + p + 1 from by omega,
      show j + (p + 1) + 1 = j + p + 2 from by omega]
    rw [term1_eq_rinv, term2_eq_rinv] at hkey ⊢
    simp only [show j + (p + 1) = j + p + 1 from by omega,
      show j + (p + 1) + 1 = j + p + 2 from by omega] at hkey ⊢
    push_cast at hkey ⊢
    linear_combination (-1 : ℝ) * hkey

/-- C3 (amended): first-derivative evaluation `d(xi)` uses exactly the same
recursion as `evaluate(xi)` except at the outermost level, where the two
numerators are the constants `p` and `-p` (terms still `0` on zero
denominators) applied to the ordinary order-`(p-1)` values; and, for a
non-decreasing knot vector, the resulting vector is the exact analytic first
derivative of every basis function at every `xi` that is *not equal to a
knot* (at knots the basis functions need not be differentiable — see the
counterexample). -/
theorem claim3_first_derivative (kv : List ℝ) (p : ℕ) (hp : 1 ≤ p) (xi : ℝ) :
    (∀ i, i + p + 1 < kv.length →
      (d kv p xi).getD i 0 =
        (if kv.getD (i + p) 0 - kv.getD i 0 ≠ 0 then
          (p : ℝ) / (kv.getD (i + p) 0 - kv.getD i 0) else 0) *
          (evaluate kv (p - 1) xi).getD i 0 +
        (if kv.getD (i + p + 1) 0 - kv.getD (i + 1) 0 ≠ 0 then
          (-(p : ℝ)) / (kv.getD (i + p + 1) 0 - kv.getD (i + 1) 0) else 0) *
          (evaluate kv (p - 1) xi).getD (i + 1) 0) ∧
    (List.Sorted (· ≤ ·) kv → (∀ t ∈ kv, xi ≠ t) →
      ∀ i, i + p + 1 < kv.length →
        HasDerivAt (fun x => (evaluate kv p x).getD i 0)
          ((d kv p xi).getD i 0) xi) := by
  constructor
  · intro i hi
    rw [d_getD kv p hp xi i hi,
      evaluate_getD kv (p - 1) xi i (by omega),
      evaluate_getD kv (p - 1) xi (i + 1) (by omega)]
    rfl
  · intro hsort hxi i hi
    have hfun : (fun x => (evaluate kv p x).getD i 0) =
        fun x => Nfun kv p i x :=
      funext fun x => evaluate_getD kv p x i hi
    rw [hfun, d_getD kv p hp xi i hi]
    exact Nfun_hasDerivAt hsort hxi p i hi

/-- C3 counterexample: with knots `[0,1,2]` and order `1`, the first basis
function is the hat function (slope `1` on `(0,1)`, slope `-1` on `(1,2)`),
which is *not differentiable* at the interior knot `xi = 1`; yet `d(1)`
returns the definite value `-1` there.  So the returned vector does not
equal "the exact analytic first derivative of every basis function at `xi`"
for every `xi`. -/
theorem claim3_counterexample :
    ¬ DifferentiableAt ℝ (fun x => (evaluate [(0 : ℝ), 1, 2] 1 x).getD 0 0) 1 ∧
    (d [(0 : ℝ), 1, 2] 1 1).getD 0 0 = -1 := by
  constructor
  · intro hdiff
    have hc := hdiff.hasDerivAt
    have hfx : ∀ x ∈ Set.Ioo (0 : ℝ) 1,
        (evaluate [(0 : ℝ), 1, 2] 1 x).getD 0 0 = x := by
      intro x hx
      have h1 : (0 : ℝ) ≤ x := hx.1.le
      have h2 : x < 1 := hx.2
      have h3 : ¬ (1 : ℝ) ≤ x := not_le.mpr h2
      norm_num [evaluate, basisAux, basis0, h1, h2, h3]
    have hgx : ∀ x ∈ Set.Ioo (1 : ℝ) 2,
        (evaluate [(0 : ℝ), 1, 2] 1 x).getD 0 0 = 2 - x := by
      intro x hx
      have h1 : ¬ x < (1 : ℝ) := not_lt.mpr hx.1.le
      have h2 : (1 : ℝ) ≤ x := hx.1.le
      have h3 : x < 2 := hx.2
      norm_num [evaluate, basisAux, basis0, h1, h2, h3]
    have hval : (evaluate [(0 : ℝ), 1, 2] 1 1).getD 0 0 = 1 := by
      norm_num [evaluate, basisAux, basis0]
    have hL : HasDerivWithinAt (fun x : ℝ => x)
        (deriv (fun x => (evaluate [(0 : ℝ), 1, 2] 1 x).getD 0 0) 1)
        (Set.Iio 1) 1 := by
      refine hc.hasDerivWithinAt.congr_of_eventuallyEq ?_ (by rw [hval])
      filter_upwards [Ioo_mem_nhdsWithin_Iio
        (show (1 : ℝ) ∈ Set.Ioc (0 : ℝ) 1 by constructor <;> norm_num)] with x hx
      exact (hfx x hx).symm
    have hR : HasDerivWithinAt (fun x : ℝ => 2 - x)
        (deriv (fun x => (evaluate [(0 : ℝ), 1, 2] 1 x).getD 0 0) 1)
        (Set.Ioi 1) 1 := by
      refine hc.hasDerivWithinAt.congr_of_eventuallyEq ?_ (by rw [hval]; norm_num)
      filter_upwards [Ioo_mem_nhdsWithin_Ioi
        (show (1 : ℝ) ∈ Set.Ico (1 : ℝ) 2 by constructor <;> norm_num)] with x hx
      exact (hgx x hx).symm
    have u1 := hL.derivWithin (uniqueDiffWithinAt_Iio (1 : ℝ))
    have u2 := ((hasDerivAt_id (1 : ℝ)).hasDerivWithinAt :
      HasDerivWithinAt (fun x : ℝ => x) 1 (Set.Iio 1) 1).derivWithin
      (uniqueDiffWithinAt_Iio (1 : ℝ))
    have u3 := hR.derivWithin (uniqueDiffWithinAt_Ioi (1 : ℝ))
    have hd2 : HasDerivWithinAt (fun x : ℝ => 2 - x) (-1) (Set.Ioi 1) 1 := by
      have h0 := (hasDerivAt_const (1 : ℝ) 2).sub (hasDerivAt_id (1 : ℝ))
      simpa using h0.hasDerivWithinAt
    have u4 := hd2.derivWithin (uniqueDiffWithinAt_Ioi (1 : ℝ))
    have e1 := u1.symm.trans u2
    have e2 := u3.symm.trans u4
    rw [e2] at e1
    norm_num at e1
  · norm_num [d, basisAux, basis0]

/-- Witness for C3 at `kv = [0,1,2,3]`, `p = 1`, `i = 0`, `xi = 1/2`
(not a knot): both the structural formula and differentiability. -/
theorem claim3_first_derivative_witness :
    ((d [(0 : ℝ), 1, 2, 3] 1 (1 / 2)).getD 0 0 =
      (if ([(0 : ℝ), 1, 2, 3]).getD 1 0 - ([(0 : ℝ), 1, 2, 3]).getD 0 0 ≠ 0 then
        (1 : ℝ) / (([(0 : ℝ), 1, 2, 3]).getD 1 0 - ([(0 : ℝ), 1, 2, 3]).getD 0 0)
      else 0) * (evaluate [(0 : ℝ), 1, 2, 3] 0 (1 / 2)).getD 0 0 +
      (if ([(0 : ℝ), 1, 2, 3]).getD 2 0 - ([(0 : ℝ), 1, 2, 3]).getD 1 0 ≠ 0 then
        (-(1 : ℝ)) / (([(0 : ℝ), 1, 2, 3]).getD 2 0 - ([(0 : ℝ), 1, 2, 3]).getD 1 0)
      else 0) * (evaluate [(0 : ℝ), 1, 2, 3] 0 (1 / 2)).getD 1 0) ∧
    HasDerivAt (fun x => (evaluate [(0 : ℝ), 1, 2, 3] 1 x).getD 0 0)
      ((d [(0 : ℝ), 1, 2, 3] 1 (1 / 2)).getD 0 0) (1 / 2) := by
  have h := claim3_first_derivative [(0 : ℝ), 1, 2, 3] 1 (by norm_num) (1 / 2)
  constructor
  · have h1 := h.1 0 (by norm_num)
    simpa using h1
  · exact h.2 (by norm_num [List.sorted_cons])
      (by intro t ht; fin_cases ht <;> norm_num) 0 (by norm_num)

/-- Witness for C6 at `knots = [0,0,1,1]`, `order = 1`,
`tau = [1/4, 1/4]` (a repeated site, multiplicities `0` and `1`). -/
theorem claim6_spcol_witness :
    (spcol [(0 : ℝ), 0, 1, 1] 1 [1 / 4, 1 / 4]).length = 2 ∧
    (spcol [(0 : ℝ), 0, 1, 1] 1 [1 / 4, 1 / 4]).getD 1 [] =
      diffModel [(0 : ℝ), 0, 1, 1] 1 (multSpec [(1 / 4 : ℝ), 1 / 4] 1) (1 / 4) := by
  have h := claim6_spcol [(0 : ℝ), 0, 1, 1] 1 [1 / 4, 1 / 4]
    (by norm_num [List.sorted_cons])
  refine ⟨?_, ?_⟩
  · rw [h.1]
    rfl
  · exact h.2.2.1 1 (by norm_num)

end BsplineVerif
